import Mathlib

/-!
Verification of the PDF question-extraction pipeline in
`scripts/process_pdfs.py` (repository Sumarpit/Prelims-Mock).

Text is modelled as `List Char`.  Each Python regex operation used by the
pipeline is hand-specialised to its concrete pattern: for every pattern the
Python engine's leftmost / greedy / lazy behaviour is deterministic (argued
case by case in the doc comments below), so each operation is a total
computable function.
-/

set_option maxHeartbeats 1000000
set_option maxRecDepth 100000

/-- ASCII whitespace as matched by Python's `\s` and by `str.strip()`
on the ASCII inputs handled here. -/
def pws (c : Char) : Bool :=
  c = ' ' || c = '\t' || c = '\n' || c = '\r' || c = '\x0b' || c = '\x0c'

/-- Python `str.strip()`: drop whitespace from both ends. -/
def stripBoth (t : List Char) : List Char :=
  ((t.dropWhile pws).reverse.dropWhile pws).reverse

/-- Case-insensitive prefix test (Python `re.IGNORECASE` on ASCII literals). -/
def ciMatch : List Char → List Char → Bool
  | [], _ => true
  | _ :: _, [] => false
  | p :: ps, c :: cs => (p.toLower = c.toLower) && ciMatch ps cs

/-- Earliest case-insensitive occurrence of a literal `p`: returns the text
before the match and the text after it.  Models the scanning behaviour of
`re.search`/`re.sub` for a plain literal pattern. -/
def ciBreak (p : List Char) : List Char → Option (List Char × List Char)
  | [] => if ciMatch p [] then some ([], []) else none
  | c :: r =>
    if ciMatch p (c :: r) then some ([], (c :: r).drop p.length)
    else (ciBreak p r).map (fun q => (c :: q.1, q.2))

/-- Whether `p` occurs case-insensitively in `t`. -/
def hasCI (p t : List Char) : Bool := (ciBreak p t).isSome

/-- Case-sensitive occurrence scan (plain literal). -/
def csMatch : List Char → List Char → Bool
  | [], _ => true
  | _ :: _, [] => false
  | p :: ps, c :: cs => (p = c) && csMatch ps cs

/-- Earliest case-sensitive occurrence of a literal. -/
def csBreak (p : List Char) : List Char → Option (List Char × List Char)
  | [] => if csMatch p [] then some ([], []) else none
  | c :: r =>
    if csMatch p (c :: r) then some ([], (c :: r).drop p.length)
    else (csBreak p r).map (fun q => (c :: q.1, q.2))

/-- Whether `p` occurs (case-sensitively) in `t`. -/
def hasCS (p t : List Char) : Bool := (csBreak p t).isSome

/-! The fixed boilerplate literals of `clean_garbage_text`.  The Python
source joins these with lazy `.*?` separators under `DOTALL | IGNORECASE`;
the second part contains an internal `\s*`. -/

def addrP1 : List Char :=
  "Forum Learning Centre : Delhi - Plot No. 36, 4th Floor (Above Kalyan Jewellers), Pusa Road, Karol Bagh, New Delhi - 110005".toList
def addrP2a : List Char := "Patna - 2nd floor, AG Palace, E Boring".toList
def addrP2b : List Char := "Canal Road, Patna, Bihar 800001".toList
def addrP3 : List Char :=
  "Hyderabad - 1st & 2nd Floor, SM Plaza, RTC X Rd, Indira Park Road, Jawahar Nagar, Hyderabad, Telangana 500020".toList
def addrP4 : List Char := "9311740400, 9311740900".toList
def addrP5 : List Char := "https://academy.forumias.com".toList
def addrP6 : List Char := "admissions@forumias.academy".toList
def addrP7 : List Char := "helpdesk@forumias.academy".toList

/-- Match of the unit `addrP2a ++ \s* ++ addrP2b` at the head of `t`
(the `\s*` is greedy; since `addrP2b` starts with a non-whitespace
character, skipping the maximal whitespace run is exact). -/
def addrP2At (t : List Char) : Option (List Char) :=
  if ciMatch addrP2a t then
    let r := (t.drop addrP2a.length).dropWhile pws
    if ciMatch addrP2b r then some (r.drop addrP2b.length) else none
  else none

/-- Earliest position where the part-2 unit matches; returns the remainder
after the match. -/
def addrP2Break : List Char → Option (List Char)
  | [] => none
  | c :: r =>
    match addrP2At (c :: r) with
    | some rest => some rest
    | none => addrP2Break r

/-- Chain the parts 2–7 after a match of part 1, each at its earliest
occurrence (the lazy `.*?` separators make the earliest choice exact:
failure from the earliest occurrence implies failure from every later
one, because each later search space is a suffix of the earlier one). -/
def addrChain (r1 : List Char) : Option (List Char) :=
  match addrP2Break r1 with
  | none => none
  | some r2 =>
    match ciBreak addrP3 r2 with
    | none => none
    | some (_, r3) =>
      match ciBreak addrP4 r3 with
      | none => none
      | some (_, r4) =>
        match ciBreak addrP5 r4 with
        | none => none
        | some (_, r5) =>
          match ciBreak addrP6 r5 with
          | none => none
          | some (_, r6) =>
            match ciBreak addrP7 r6 with
            | none => none
            | some (_, r7) => some r7

theorem ciMatch_length_le : ∀ (p t : List Char), ciMatch p t = true → p.length ≤ t.length := by
  intro p
  induction p with
  | nil => intro t _; simp
  | cons a ps ih =>
    intro t h
    cases t with
    | nil => simp [ciMatch] at h
    | cons c cs =>
      simp only [ciMatch, Bool.and_eq_true] at h
      have := ih cs h.2
      simp [List.length_cons]
      omega

theorem ciBreak_length_le {p : List Char} :
    ∀ {t a b : List Char}, ciBreak p t = some (a, b) → b.length ≤ t.length := by
  intro t
  induction t with
  | nil =>
    intro a b h
    simp only [ciBreak] at h
    split at h
    · simp at h; simp [h.2]
    · simp at h
  | cons c r ih =>
    intro a b h
    simp only [ciBreak] at h
    split at h
    · simp at h
      have : b = (c :: r).drop p.length := h.2.symm
      subst this
      simp [List.length_drop]
    · simp only [Option.map_eq_some'] at h
      obtain ⟨q, hq, he⟩ := h
      have := ih (a := q.1) (b := q.2) (by rw [hq])
      have hb : b = q.2 := by
        have := congrArg Prod.snd he; simpa using this.symm
      subst hb
      simp [List.length_cons]
      omega

theorem ciBreak_length_lt {p : List Char} (hp : p ≠ []) :
    ∀ {t a b : List Char}, ciBreak p t = some (a, b) → b.length < t.length := by
  intro t
  induction t with
  | nil =>
    intro a b h
    simp only [ciBreak] at h
    split at h
    · rename_i hm
      cases p with
      | nil => exact absurd rfl hp
      | cons x xs => simp [ciMatch] at hm
    · simp at h
  | cons c r ih =>
    intro a b h
    simp only [ciBreak] at h
    split at h
    · rename_i hm
      simp at h
      have hb : b = (c :: r).drop p.length := h.2.symm
      subst hb
      have hlen : p.length ≤ (c :: r).length := ciMatch_length_le p (c :: r) hm
      have hpos : 1 ≤ p.length := by
        cases p with
        | nil => exact absurd rfl hp
        | cons x xs => simp
      simp [List.length_drop]
      omega
    · simp only [Option.map_eq_some'] at h
      obtain ⟨q, hq, he⟩ := h
      have := ih (a := q.1) (b := q.2) (by rw [hq])
      have hb : b = q.2 := by
        have := congrArg Prod.snd he; simpa using this.symm
      subst hb
      simp [List.length_cons]
      omega

theorem addrP2At_length_le :
    ∀ {t rest : List Char}, addrP2At t = some rest → rest.length ≤ t.length := by
  intro t rest h
  simp only [addrP2At] at h
  split at h
  · split at h
    · simp at h
      subst h
      calc (((t.drop addrP2a.length).dropWhile pws).drop addrP2b.length).length
          ≤ ((t.drop addrP2a.length).dropWhile pws).length := by
            simp [List.length_drop]
        _ ≤ (t.drop addrP2a.length).length := (List.dropWhile_sublist _).length_le
        _ ≤ t.length := by simp [List.length_drop]
    · simp at h
  · simp at h

theorem addrP2Break_length_le :
    ∀ {t rest : List Char}, addrP2Break t = some rest → rest.length ≤ t.length := by
  intro t
  induction t with
  | nil => intro rest h; simp [addrP2Break] at h
  | cons c r ih =>
    intro rest h
    simp only [addrP2Break] at h
    split at h
    · rename_i heq
      cases h
      have := addrP2At_length_le heq
      omega
    · have := ih h
      simp [List.length_cons]
      omega

theorem addrChain_length_le :
    ∀ {t rest : List Char}, addrChain t = some rest → rest.length ≤ t.length := by
  intro t rest h
  simp only [addrChain] at h
  split at h
  · simp at h
  · rename_i r2 h2
    split at h
    · simp at h
    · rename_i p3 h3
      split at h
      · simp at h
      · rename_i p4 h4
        split at h
        · simp at h
        · rename_i p5 h5
          split at h
          · simp at h
          · rename_i p6 h6
            split at h
            · simp at h
            · rename_i p7 h7
              cases h
              have i2 := addrP2Break_length_le h2
              have i3 := ciBreak_length_le h3
              have i4 := ciBreak_length_le h4
              have i5 := ciBreak_length_le h5
              have i6 := ciBreak_length_le h6
              have i7 := ciBreak_length_le h7
              omega

/-- Fuel-indexed body of `addressSub` (each removed match strictly shortens
the text, so `t.length + 1` fuel is never exhausted; structural recursion
on the fuel keeps the function kernel-reducible). -/
def addressSubGo : Nat → List Char → List Char
  | 0, t => t
  | fuel + 1, t =>
    match ciBreak addrP1 t with
    | none => t
    | some (pre, r1) =>
      match addrChain r1 with
      | none => t
      | some rem => pre ++ addressSubGo fuel rem

/-- `re.sub(address_regex, '', text, flags=DOTALL | IGNORECASE)`:
remove every (leftmost, non-overlapping) match of the chained boilerplate
pattern.  A match must start at an occurrence of part 1, and if the chain
fails from the earliest part-1 occurrence it fails from every occurrence,
so scanning from the earliest part 1 is exact. -/
def addressSub (t : List Char) : List Char := addressSubGo (t.length + 1) t

/-- Split on `'\n'` (the line structure used by `(?m)^...$`). -/
def splitNL : List Char → List (List Char)
  | [] => [[]]
  | c :: r =>
    if c = '\n' then [] :: splitNL r
    else
      match splitNL r with
      | [] => [[c]]
      | l :: ls => (c :: l) :: ls

/-- Join lines with `'\n'` (inverse of `splitNL`). -/
def joinNL : List (List Char) → List Char
  | [] => []
  | [l] => l
  | l :: ls => l ++ '\n' :: joinNL ls

def sfgTag : List Char := "SFG 2026".toList

/-- `re.sub(r'(?m)^SFG 2026.*$', '', text)`: blank out the content of every
line that starts with the tag (the newline characters themselves are kept,
since `.` does not match `\n` and `$` is zero-width). -/
def sfgSub (t : List Char) : List Char :=
  joinNL ((splitNL t).map (fun l => if sfgTag.isPrefixOf l then [] else l))

/-- Fuel-indexed body of `collapseNL` (every step shortens the text by one
character, so `t.length` fuel suffices). -/
def collapseGo : Nat → List Char → List Char
  | 0, t => t
  | fuel + 1, t =>
    match t with
    | '\n' :: '\n' :: '\n' :: r => collapseGo fuel ('\n' :: '\n' :: r)
    | c :: r => c :: collapseGo fuel r
    | [] => []

/-- `re.sub(r'\n{3,}', '\n\n', text)`: every maximal run of three or more
newlines becomes exactly two (dropping the leading newline of any triple
is equivalent). -/
def collapseNL (t : List Char) : List Char := collapseGo t.length t

/-- `clean_garbage_text`: boilerplate removal then SFG-line removal then
newline collapsing. -/
def clean_garbage_text (t : List Char) : List Char :=
  collapseNL (sfgSub (addressSub t))

/-! Lengths of scanning helpers, used for termination. -/

theorem dropWhile_length_le (p : Char → Bool) (l : List Char) :
    (l.dropWhile p).length ≤ l.length :=
  (List.dropWhile_sublist p).length_le

theorem takeWhile_length_le (p : Char → Bool) (l : List Char) :
    (l.takeWhile p).length ≤ l.length := by
  induction l with
  | nil => simp
  | cons c r ih =>
    rw [List.takeWhile_cons]
    split
    · simp; omega
    · simp

theorem csMatch_length_le : ∀ (p t : List Char), csMatch p t = true → p.length ≤ t.length := by
  intro p
  induction p with
  | nil => intro t _; simp
  | cons a ps ih =>
    intro t h
    cases t with
    | nil => simp [csMatch] at h
    | cons c cs =>
      simp only [csMatch, Bool.and_eq_true] at h
      have := ih cs h.2
      simp [List.length_cons]
      omega

/-! Embedding of `format_explanation`. -/

def brOpen : List Char := "<br><br><b>".toList
def bClose : List Char := "</b>".toList

/-- Fuel-indexed body of `litRepl`. -/
def litReplGo (kw : List Char) : Nat → List Char → List Char
  | _, [] => []
  | 0, t => t
  | fuel + 1, c :: r =>
    if kw ≠ [] ∧ ciMatch kw (c :: r) = true then
      brOpen ++ (c :: r).take kw.length ++ bClose ++ litReplGo kw fuel ((c :: r).drop kw.length)
    else c :: litReplGo kw fuel r

/-- One keyword pass of `format_explanation`:
`re.sub(f"(?i)({kw})", r'<br><br><b>\1</b>', text)` for a literal keyword.
The matched text itself (original case) is kept inside the markup. -/
def litRepl (kw t : List Char) : List Char := litReplGo kw (t.length + 1) t

def hencePre : List Char := "Hence option ".toList
def isCorrectLit : List Char := " is correct".toList

/-- Scan for the lazy `.*?` of `Hence option .*? is correct`: the earliest
position of the closing literal with no intervening newline (`.` does not
match `\n`).  Returns the number of characters consumed from this point
through the end of the closing literal. -/
def henceScan : List Char → Option Nat
  | [] => none
  | c :: r =>
    if ciMatch isCorrectLit (c :: r) then some isCorrectLit.length
    else if c = '\n' then none
    else (henceScan r).map (· + 1)

theorem henceScan_le : ∀ {t : List Char} {n : Nat}, henceScan t = some n → n ≤ t.length := by
  intro t
  induction t with
  | nil => intro n h; simp [henceScan] at h
  | cons c r ih =>
    intro n h
    simp only [henceScan] at h
    split at h
    · rename_i hm
      cases h
      exact ciMatch_length_le _ _ hm
    · split at h
      · simp at h
      · simp only [Option.map_eq_some'] at h
        obtain ⟨m, hm, he⟩ := h
        have := ih hm
        simp only [List.length_cons]
        omega

/-- Match of the `Hence option .*? is correct` keyword at the head of `t`;
returns the match length. -/
def tryHence (t : List Char) : Option Nat :=
  if ciMatch hencePre t then (henceScan (t.drop hencePre.length)).map (hencePre.length + ·)
  else none

theorem tryHence_bounds : ∀ {t : List Char} {n : Nat},
    tryHence t = some n → 1 ≤ n ∧ n ≤ t.length := by
  intro t n h
  simp only [tryHence] at h
  split at h
  · rename_i hm
    simp only [Option.map_eq_some'] at h
    obtain ⟨m, hm2, he⟩ := h
    have h1 := henceScan_le hm2
    have h2 := ciMatch_length_le hencePre t hm
    have h3 : hencePre.length = 13 := by decide
    simp [List.length_drop] at h1
    omega
  · simp at h

/-- Fuel-indexed body of `henceRepl`. -/
def henceReplGo : Nat → List Char → List Char
  | _, [] => []
  | 0, t => t
  | fuel + 1, c :: r =>
    match tryHence (c :: r) with
    | some m => brOpen ++ (c :: r).take m ++ bClose ++ henceReplGo fuel ((c :: r).drop m)
    | none => c :: henceReplGo fuel r

/-- The `Hence option .*? is correct` keyword pass. -/
def henceRepl (t : List Char) : List Char := henceReplGo (t.length + 1) t

/-- A keyword pattern of `format_explanation`'s keyword list. -/
inductive KwPat where
  | lit : List Char → KwPat
  | henceOpt : KwPat

def kwSub : KwPat → List Char → List Char
  | .lit kw, t => litRepl kw t
  | .henceOpt, t => henceRepl t

/-- The keyword list of `format_explanation`, in source order. -/
def formatKeywords : List KwPat :=
  [.lit "Statement I is correct".toList, .lit "Statement II is correct".toList,
   .lit "Statement 1 is correct".toList, .lit "Statement 2 is correct".toList,
   .lit "Statement I is incorrect".toList, .lit "Statement II is incorrect".toList,
   .lit "Statement 1 is incorrect".toList, .lit "Statement 2 is incorrect".toList,
   .henceOpt, .lit "Thus,".toList, .lit "Therefore,".toList]

/-- Tail of the `\n\s*(\d+\.)\s+` match after the captured digits: a dot,
then at least one whitespace character (the greedy `\s+`). -/
def afterDot (ds : List Char) : List Char → Option (List Char × List Char)
  | '.' :: r2 =>
    if (r2.takeWhile pws).isEmpty then none else some (ds, r2.dropWhile pws)
  | _ => none

/-- The `\s*(\d+\.)\s+` part of the list-item pattern, after the newline. -/
def dsDotWs (r1 : List Char) : Option (List Char × List Char) :=
  if (r1.takeWhile Char.isDigit).isEmpty then none
  else afterDot (r1.takeWhile Char.isDigit) (r1.drop (r1.takeWhile Char.isDigit).length)

/-- Match of `\n\s*(\d+\.)\s+` at the head of `t`: returns the captured
digits (group 1 is the digits plus the dot) and the remainder after the
matched trailing whitespace run. -/
def tryListItem : List Char → Option (List Char × List Char)
  | [] => none
  | c :: r => if c = '\n' then dsDotWs (r.dropWhile pws) else none

theorem afterDot_length {ds t ds2 rest : List Char}
    (h : afterDot ds t = some (ds2, rest)) : rest.length < t.length := by
  cases t with
  | nil => simp [afterDot] at h
  | cons c r2 =>
    cases hc : (c = '.' : Bool) with
    | false =>
      have : c ≠ '.' := by simpa using hc
      cases c <;> simp_all [afterDot]
    | true =>
      have hc2 : c = '.' := by simpa using hc
      subst hc2
      simp only [afterDot] at h
      split at h
      · simp at h
      · simp at h
        have : rest = r2.dropWhile pws := h.2.symm
        subst this
        have := dropWhile_length_le pws r2
        simp
        omega

theorem dsDotWs_length {r1 ds rest : List Char}
    (h : dsDotWs r1 = some (ds, rest)) : rest.length < r1.length := by
  simp only [dsDotWs] at h
  split at h
  · simp at h
  · rename_i hne
    have h1 := afterDot_length h
    have h2 : (r1.drop (r1.takeWhile Char.isDigit).length).length ≤ r1.length := by
      simp [List.length_drop]
    omega

theorem tryListItem_length : ∀ {t : List Char} {ds rest : List Char},
    tryListItem t = some (ds, rest) → rest.length < t.length := by
  intro t ds rest h
  cases t with
  | nil => simp [tryListItem] at h
  | cons c r =>
    simp only [tryListItem] at h
    split at h
    · have h1 := dsDotWs_length h
      have h2 := dropWhile_length_le pws r
      simp
      omega
    · simp at h

/-- Fuel-indexed body of `listRepl`. -/
def listReplGo : Nat → List Char → List Char
  | _, [] => []
  | 0, t => t
  | fuel + 1, c :: r =>
    match tryListItem (c :: r) with
    | some (ds, rest) =>
      "<br><b>".toList ++ ds ++ '.' :: "</b> ".toList ++ listReplGo fuel rest
    | none => c :: listReplGo fuel r

/-- `re.sub(r'\n\s*(\d+\.)\s+', r'<br><b>\1</b> ', text)`. -/
def listRepl (t : List Char) : List Char := listReplGo (t.length + 1) t

/-- Fuel-indexed body of `strReplace`. -/
def strReplaceGo (pat rep : List Char) : Nat → List Char → List Char
  | _, [] => []
  | 0, t => t
  | fuel + 1, c :: r =>
    if pat ≠ [] ∧ csMatch pat (c :: r) = true then
      rep ++ strReplaceGo pat rep fuel ((c :: r).drop pat.length)
    else c :: strReplaceGo pat rep fuel r

/-- Python `str.replace(pat, rep)` (case-sensitive, non-overlapping,
left to right). -/
def strReplace (pat rep t : List Char) : List Char :=
  strReplaceGo pat rep (t.length + 1) t

def noExplanation : List Char := "No explanation provided.".toList

/-- `format_explanation`. -/
def format_explanation (t : List Char) : List Char :=
  if t = [] then noExplanation
  else
    stripBoth (strReplace "<br><br><br>".toList "<br><br>".toList
      (listRepl (formatKeywords.foldl (fun acc k => kwSub k acc) t)))

/-! Embedding of `parse_forum_ias`. -/

/-- The digits-then-delimiter tail of the question marker `\nQ\.\s*\d+[\)\.]`
(after the whitespace run): greedy digits, then `)` or `.`. -/
def digitsDelim (r1 : List Char) : Option (List Char) :=
  if (r1.takeWhile Char.isDigit).isEmpty then none
  else
    match r1.drop (r1.takeWhile Char.isDigit).length with
    | ')' :: rest => some rest
    | '.' :: rest => some rest
    | _ => none

theorem digitsDelim_length {r1 rest : List Char}
    (h : digitsDelim r1 = some rest) : rest.length < r1.length := by
  simp only [digitsDelim] at h
  split at h
  · simp at h
  · rename_i hne
    have hd : ¬ (r1.takeWhile Char.isDigit).length = 0 := by
      simpa [List.isEmpty_iff, List.length_eq_zero] using hne
    split at h <;> rename_i heq
    · cases h
      have h2 : (')' :: rest).length = r1.length - (r1.takeWhile Char.isDigit).length := by
        rw [← heq]; simp [List.length_drop]
      have h3 := takeWhile_length_le Char.isDigit r1
      simp at h2
      omega
    · cases h
      have h2 : ('.' :: rest).length = r1.length - (r1.takeWhile Char.isDigit).length := by
        rw [← heq]; simp [List.length_drop]
      have h3 := takeWhile_length_le Char.isDigit r1
      simp at h2
      omega
    · simp at h

/-- Match of the block-splitting marker `\nQ\.\s*\d+[\)\.]` at the head of
`t`; returns the remainder after the marker. -/
def tryQMark : List Char → Option (List Char)
  | c1 :: c2 :: c3 :: r =>
    if c1 = '\n' ∧ c2 = 'Q' ∧ c3 = '.' then digitsDelim (r.dropWhile pws) else none
  | _ => none

theorem tryQMark_length : ∀ {t rest : List Char},
    tryQMark t = some rest → rest.length < t.length := by
  intro t rest h
  match t with
  | [] => simp [tryQMark] at h
  | [c] => simp [tryQMark] at h
  | [c, d] => simp [tryQMark] at h
  | c1 :: c2 :: c3 :: r =>
    simp only [tryQMark] at h
    split at h
    · have h1 := digitsDelim_length h
      have h2 := dropWhile_length_le pws r
      simp only [List.length_cons]
      omega
    · simp at h

/-- Fuel-indexed body of `splitQ`. -/
def splitQGo : Nat → List Char → List Char → List (List Char)
  | _, acc, [] => [acc.reverse]
  | 0, acc, t => [acc.reverse ++ t]
  | fuel + 1, acc, c :: r =>
    match tryQMark (c :: r) with
    | some rest => acc.reverse :: splitQGo fuel [] rest
    | none => splitQGo fuel (c :: acc) r

/-- `re.split(r'\nQ\.\s*\d+[\)\.]', text)`: pieces between non-overlapping
leftmost marker matches. -/
def splitQ (t : List Char) : List (List Char) := splitQGo (t.length + 1) [] t

/-- Delimiter `[\)\:]` check after an `n`-character tag. -/
def delimAfter (n : Nat) (t : List Char) : Option (List Char) :=
  match t.drop n with
  | ')' :: rest => some rest
  | ':' :: rest => some rest
  | _ => none

def expLit : List Char := "Exp".toList
def explanationLit : List Char := "Explanation".toList

/-- Match of `(?:Exp|Explanation)[\)\:]` at the head of `t` (alternation
tries `Exp` first, then `Explanation`). -/
def expTagAt (t : List Char) : Option (List Char) :=
  if ciMatch expLit t then
    match delimAfter 3 t with
    | some rest => some rest
    | none =>
      if ciMatch explanationLit t then delimAfter 11 t else none
  else none

/-- `re.search(r'(?:Exp|Explanation)[\)\:]\s*(.*)', block, DOTALL | IGNORECASE)`:
earliest tag occurrence; group 1 is everything after the greedy `\s*`
(DOTALL `.*` runs to the end of the block). -/
def findExpTag : List Char → Option (List Char)
  | [] => none
  | c :: r =>
    match expTagAt (c :: r) with
    | some rest => some (rest.dropWhile pws)
    | none => findExpTag r

/-- The extracted explanation: `exp_match.group(1).strip()` or `""`. -/
def extractExplanation (block : List Char) : List Char :=
  match findExpTag block with
  | some g => stripBoth g
  | none => []

def isAtoD (c : Char) : Bool :=
  c = 'a' || c = 'b' || c = 'c' || c = 'd' || c = 'A' || c = 'B' || c = 'C' || c = 'D'

/-- `\s+` followed by a case-insensitive literal: at least one whitespace
character, then the maximal whitespace run, then the literal. -/
def wsThenCI (lit : List Char) : List Char → Option (List Char)
  | [] => none
  | c :: r =>
    if pws c then
      if ciMatch lit (r.dropWhile pws) then some ((r.dropWhile pws).drop lit.length)
      else none
    else none

/-- The `\s+is\s+the\s+correct\s+answer` tail of the strategy-A pattern. -/
def ansTailAt (r : List Char) : Bool :=
  match wsThenCI "is".toList r with
  | none => false
  | some r1 =>
    match wsThenCI "the".toList r1 with
    | none => false
    | some r2 =>
      match wsThenCI "correct".toList r2 with
      | none => false
      | some r3 => (wsThenCI "answer".toList r3).isSome

/-- The branch of strategy A without the optional `Option\s*` prefix. -/
def expAnsNoOption (e : List Char) : Option Char :=
  match e with
  | c :: r => if isAtoD c && ansTailAt r then some c else none
  | [] => none

def optionLit : List Char := "Option".toList

/-- `re.match(r'(?:Option\s*)?([a-dA-D])\s+is\s+the\s+correct\s+answer', e,
IGNORECASE)`: anchored at the start of `e`; the optional group is tried
first and the engine falls back to the bare-letter branch. -/
def expAnsMatch (e : List Char) : Option Char :=
  if ciMatch optionLit e then
    match (e.drop 6).dropWhile pws with
    | c :: r =>
      if isAtoD c && ansTailAt r then some c else expAnsNoOption e
    | [] => expAnsNoOption e
  else expAnsNoOption e

def ansLit : List Char := "Ans".toList
def answerLit : List Char := "Answer".toList

/-- Match of `(?:Ans|Answer)[\)\:]\s*([a-dA-D])` at the head of `t`. -/
def ansTagAt (t : List Char) : Option Char :=
  match
    (if ciMatch ansLit t then
      match delimAfter 3 t with
      | some rest => some rest
      | none => if ciMatch answerLit t then delimAfter 6 t else none
     else none) with
  | none => none
  | some rest =>
    match rest.dropWhile pws with
    | c :: _ => if isAtoD c then some c else none
    | [] => none

/-- `re.search` scanning for the answer tag: on a per-position failure
(including "tag present but no a–d letter after it") the scan moves on. -/
def ansTagSearch : List Char → Option Char
  | [] => none
  | c :: r =>
    match ansTagAt (c :: r) with
    | some ch => some ch
    | none => ansTagSearch r

/-- `re.search(r'Subject:\)\s*(.*)', block)` (case-sensitive, no DOTALL):
earliest tag, greedy `\s*` (which may cross newlines), then the rest of
that line, finally `.strip()`. -/
def tagLineSearch (tag : List Char) : List Char → Option (List Char)
  | [] => none
  | c :: r =>
    if tag.isPrefixOf (c :: r) then
      some (stripBoth ((((c :: r).drop tag.length).dropWhile pws).takeWhile (fun x => x != '\n')))
    else tagLineSearch tag r

def metaTags : List (List Char) :=
  ["Subject:)".toList, "Topic:)".toList, "Source:)".toList]

/-- `re.sub(r'(Subject:\)|Topic:\)|Source:\)).*', '', explanation, DOTALL)`:
truncate at the earliest of the three tags. -/
def metaCut : List Char → List Char
  | [] => []
  | c :: r =>
    if metaTags.any (fun tag => tag.isPrefixOf (c :: r)) then []
    else c :: metaCut r

def metaStrip (e : List Char) : List Char := stripBoth (metaCut e)

/-- Match of `\n\s*a[\)\.]` at the head of `t` (the option-region start;
note the lowercase-only `a`). -/
def optStartAt (t : List Char) : Bool :=
  match t with
  | '\n' :: r =>
    match r.dropWhile pws with
    | 'a' :: d :: _ => d = ')' || d = '.'
    | _ => false
  | _ => false

/-- `re.search(r'\n\s*a[\)\.]', block)`: split the block at the start of
the earliest match (`block[:start]`, `block[start:]`). -/
def findOptSplit : List Char → Option (List Char × List Char)
  | [] => none
  | c :: r =>
    if optStartAt (c :: r) then some ([], c :: r)
    else (findOptSplit r).map (fun q => (c :: q.1, q.2))

/-- Match of `\n\s*(?:Ans|Exp)` (IGNORECASE) at the head of `t`. -/
def aeMarkerAt (t : List Char) : Bool :=
  match t with
  | '\n' :: r => ciMatch ansLit (r.dropWhile pws) || ciMatch expLit (r.dropWhile pws)
  | _ => false

/-- `re.search(r'\n\s*(?:Ans|Exp)', s, IGNORECASE)`: the part of `s` before
the earliest match (`s[:start]`), if any. -/
def beforeAEMarker : List Char → Option (List Char)
  | [] => none
  | c :: r =>
    if aeMarkerAt (c :: r) then some []
    else (beforeAEMarker r).map (c :: ·)

/-- Match of `\s*([a-dA-D])[\)\.]` at the head of `t` (the option-label
pattern after its `^` or `\n` anchor); returns the consumed length. -/
def optLabelLen (t : List Char) : Option Nat :=
  match t.drop (t.takeWhile pws).length with
  | c :: d :: _ =>
    if isAtoD c && (d = ')' || d = '.') then some ((t.takeWhile pws).length + 2) else none
  | _ => none

theorem optLabelLen_bounds : ∀ {t : List Char} {n : Nat},
    optLabelLen t = some n → n ≤ t.length := by
  intro t n h
  simp only [optLabelLen] at h
  split at h
  · rename_i c d rest heq
    split at h
    · cases h
      have h2 : (c :: d :: rest).length = t.length - (t.takeWhile pws).length := by
        rw [← heq]; simp [List.length_drop]
      simp at h2
      omega
    · simp at h
  · simp at h

/-- Scanning tail of `re.finditer(r'(?:^|\n)\s*([a-dA-D])[\)\.]', ob)`
together with the option-text slicing: `acc` holds (reversed) the text
accumulated since the previous match's end; a new match begins only at a
`\n` position (the `^` alternative applies only at position 0, handled by
`optionsRaw`).  Each option text is `ob[end_i : start_j].strip()`. -/
def optsScanGo : Nat → List Char → List Char → List (List Char)
  | _, acc, [] => [stripBoth acc.reverse]
  | 0, acc, t => [stripBoth (acc.reverse ++ t)]
  | fuel + 1, acc, c :: r =>
    if c = '\n' then
      match optLabelLen r with
      | some n => stripBoth acc.reverse :: optsScanGo fuel [] (r.drop n)
      | none => optsScanGo fuel (c :: acc) r
    else optsScanGo fuel (c :: acc) r

/-- Scan for the first option-label match at a `\n` position. -/
def optsFindGo : Nat → List Char → List (List Char)
  | _, [] => []
  | 0, _ => []
  | fuel + 1, c :: r =>
    if c = '\n' then
      match optLabelLen r with
      | some n => optsScanGo fuel [] (r.drop n)
      | none => optsFindGo fuel r
    else optsFindGo fuel r

/-- All option texts of the bounded option region `ob` (its first match may
use the `^` alternative at position 0). -/
def optionsRaw (ob : List Char) : List (List Char) :=
  match optLabelLen ob with
  | some n => optsScanGo (ob.length + 1) [] (ob.drop n)
  | none => optsFindGo (ob.length + 1) ob

def errText : List Char := "Error parsing question text.".toList
def parseErrorOpt : List Char := "Parse Error".toList

/-- Question text: `block[:opt_start.start()].strip()`, or the error
sentinel when no option-region start exists. -/
def qTextOf (block : List Char) : List Char :=
  match findOptSplit block with
  | some (pre, _) => stripBoth pre
  | none => errText

/-- Options before padding: parsed from the bounded option region, or four
`"Parse Error"` sentinels when no option-region start exists. -/
def optionsPre (block : List Char) : List (List Char) :=
  match findOptSplit block with
  | some (_, aft) => optionsRaw ((beforeAEMarker aft).getD aft)
  | none => [parseErrorOpt, parseErrorOpt, parseErrorOpt, parseErrorOpt]

/-- Options after the `while len(options) < 4: options.append("-")` pad. -/
def optionsOf (block : List Char) : List (List Char) :=
  optionsPre block ++ List.replicate (4 - (optionsPre block).length) "-".toList

/-- The `{'a': 0, 'b': 1, 'c': 2, 'd': 3}.get(c, -1)` mapping. -/
def letterIdx (c : Char) : Int :=
  if c = 'a' then 0 else if c = 'b' then 1 else if c = 'c' then 2
  else if c = 'd' then 3 else -1

/-- Answer resolution: strategy A (anchored match on the explanation) has
priority; strategy B searches the whole block for an answer tag. -/
def resolveAnswer (block e : List Char) : Int :=
  match expAnsMatch e with
  | some c => letterIdx c.toLower
  | none =>
    match ansTagSearch block with
    | some c => letterIdx c.toLower
    | none => -1

def answerOf (block : List Char) : Int := resolveAnswer block (extractExplanation block)

def explanationFieldOf (block : List Char) : List Char :=
  format_explanation (metaStrip (extractExplanation block))

def subjectOf (block : List Char) : List Char :=
  (tagLineSearch "Subject:)".toList block).getD "General".toList

def topicOf (block : List Char) : List Char :=
  (tagLineSearch "Topic:)".toList block).getD "GS".toList

/-- The output record (`q_obj`). -/
structure QuestionRecord where
  id : Nat
  text : List Char
  options : List (List Char)
  correctAnswer : Int
  explanation : List Char
  subject : List Char
  topic : List Char
deriving DecidableEq, Repr

/-- Processing of one (already stripped) block body. -/
def processStripped (idx : Nat) (block : List Char) : QuestionRecord :=
  ⟨idx + 1, qTextOf block, optionsOf block, answerOf block,
   explanationFieldOf block, subjectOf block, topicOf block⟩

/-- Processing of one raw block (`block = block.strip()` first). -/
def processBlock (idx : Nat) (b : List Char) : QuestionRecord :=
  processStripped idx (stripBoth b)

/-- The `for idx, block in enumerate(blocks)` loop. -/
def processBlocksFrom (i : Nat) : List (List Char) → List QuestionRecord
  | [] => []
  | b :: bs => processBlock i b :: processBlocksFrom (i + 1) bs

/-- `parse_forum_ias`: clean, split into blocks, drop the preamble, process
every remaining block in order. -/
def parse_forum_ias (t : List Char) : List QuestionRecord :=
  processBlocksFrom 0 ((splitQ (clean_garbage_text t)).drop 1)

/-! Embedding of the per-page artifact removal in `extract_text_from_pdf`. -/

/-- Tail of a `\[\d+\]` match after the opening bracket: greedy digits then
the closing bracket. -/
def digitsThenRB (r : List Char) : Option (List Char) :=
  if (r.takeWhile Char.isDigit).isEmpty then none
  else
    match r.drop (r.takeWhile Char.isDigit).length with
    | ']' :: rest => some rest
    | _ => none

theorem digitsThenRB_length {r rest : List Char}
    (h : digitsThenRB r = some rest) : rest.length < r.length := by
  simp only [digitsThenRB] at h
  split at h
  · simp at h
  · rename_i hne
    have hd : ¬ (r.takeWhile Char.isDigit).length = 0 := by
      simpa [List.isEmpty_iff, List.length_eq_zero] using hne
    split at h <;> rename_i heq
    · cases h
      have h2 : (']' :: rest).length = r.length - (r.takeWhile Char.isDigit).length := by
        rw [← heq]; simp [List.length_drop]
      have h3 := takeWhile_length_le Char.isDigit r
      simp at h2
      omega
    · simp at h

/-- Fuel-indexed body of `bracketSub`. -/
def bracketSubGo : Nat → List Char → List Char
  | _, [] => []
  | 0, t => t
  | fuel + 1, c :: r =>
    if c = '[' then
      match digitsThenRB r with
      | some rest => bracketSubGo fuel rest
      | none => c :: bracketSubGo fuel r
    else c :: bracketSubGo fuel r

/-- `re.sub(r'\[\d+\]', '', page_text)`. -/
def bracketSub (t : List Char) : List Char := bracketSubGo (t.length + 1) t

def pageLit : List Char := "PAGE".toList

/-- The `\d+\s*---` tail of the page-tag pattern. -/
def pageTagTail (r2 : List Char) : Option (List Char) :=
  if (r2.takeWhile Char.isDigit).isEmpty then none
  else
    match (r2.drop (r2.takeWhile Char.isDigit).length).dropWhile pws with
    | '-' :: '-' :: '-' :: rest => some rest
    | _ => none

/-- Match of `---\s*PAGE\s*\d+\s*---` at the head of `t` (case-sensitive:
this substitution is applied without `IGNORECASE`). -/
def tryPageTag : List Char → Option (List Char)
  | c1 :: c2 :: c3 :: r =>
    if c1 = '-' ∧ c2 = '-' ∧ c3 = '-' then
      if pageLit.isPrefixOf (r.dropWhile pws) then
        pageTagTail (((r.dropWhile pws).drop 4).dropWhile pws)
      else none
    else none
  | _ => none

theorem pageTagTail_length {r2 rest : List Char}
    (h : pageTagTail r2 = some rest) : rest.length < r2.length := by
  simp only [pageTagTail] at h
  split at h
  · simp at h
  · rename_i hne
    have hd : ¬ (r2.takeWhile Char.isDigit).length = 0 := by
      simpa [List.isEmpty_iff, List.length_eq_zero] using hne
    split at h <;> rename_i heq
    · cases h
      have h2 : ('-' :: '-' :: '-' :: rest).length
          ≤ (r2.drop (r2.takeWhile Char.isDigit).length).length := by
        rw [← heq]; exact dropWhile_length_le pws _
      have h3 := takeWhile_length_le Char.isDigit r2
      simp [List.length_drop] at h2
      omega
    · simp at h

theorem tryPageTag_length : ∀ {t rest : List Char},
    tryPageTag t = some rest → rest.length < t.length := by
  intro t rest h
  match t with
  | [] => simp [tryPageTag] at h
  | [c] => simp [tryPageTag] at h
  | [c, d] => simp [tryPageTag] at h
  | c1 :: c2 :: c3 :: r =>
    simp only [tryPageTag] at h
    split at h
    · split at h
      · have h1 := pageTagTail_length h
        have h2 := dropWhile_length_le pws (((r.dropWhile pws).drop 4))
        have h3 : ((r.dropWhile pws).drop 4).length ≤ (r.dropWhile pws).length := by
          simp [List.length_drop]
        have h4 := dropWhile_length_le pws r
        simp only [List.length_cons]
        omega
      · simp at h
    · simp at h

/-- Fuel-indexed body of `pageTagSub`. -/
def pageTagSubGo : Nat → List Char → List Char
  | _, [] => []
  | 0, t => t
  | fuel + 1, c :: r =>
    match tryPageTag (c :: r) with
    | some rest => pageTagSubGo fuel rest
    | none => c :: pageTagSubGo fuel r

/-- `re.sub(r'---\s*PAGE\s*\d+\s*---', '', page_text)`. -/
def pageTagSub (t : List Char) : List Char := pageTagSubGo (t.length + 1) t

/-- The per-page cleaning of `extract_text_from_pdf` (page-number artifact
removal): bracketed page numbers first, then page separators. -/
def extract_page_clean (t : List Char) : List Char := pageTagSub (bracketSub t)

/-! Occurrence detectors used in the claim statements. -/

/-- Whether the block-splitting marker matches anywhere in `t`. -/
def hasQMarker : List Char → Bool
  | [] => false
  | c :: r => (tryQMark (c :: r)).isSome || hasQMarker r

/-- Whether the `Hence option .*? is correct` keyword matches anywhere. -/
def hasHence : List Char → Bool
  | [] => false
  | c :: r => (tryHence (c :: r)).isSome || hasHence r

/-- Three newlines at the head of `t`. -/
def tripleAt : List Char → Bool
  | '\n' :: '\n' :: '\n' :: _ => true
  | _ => false

/-- Whether a run of three (or more) newlines occurs in `t`. -/
def hasTripleNL : List Char → Bool
  | [] => false
  | c :: r => tripleAt (c :: r) || hasTripleNL r

/-- Whether a page-number artifact of the shape `[<digits>]` occurs. -/
def hasBracketArtifact : List Char → Bool
  | [] => false
  | c :: r => (c = '[' && (digitsThenRB r).isSome) || hasBracketArtifact r

/-- Whether a page separator artifact `---\s*PAGE\s*\d+\s*---` occurs. -/
def hasPageArtifact : List Char → Bool
  | [] => false
  | c :: r => (tryPageTag (c :: r)).isSome || hasPageArtifact r

/-- A keyword of `format_explanation` has no match in `t`. -/
def kwAbsent : KwPat → List Char → Bool
  | .lit kw, t => !(hasCI kw t)
  | .henceOpt, t => !(hasHence t)

/-- No keyword of `format_explanation` matches in `t`. -/
def kwFree (t : List Char) : Bool := formatKeywords.all (fun k => kwAbsent k t)

/-- The question-number marker as described by the specification: at a line
start, `Q`, an optional period and/or whitespace, digits, then `)` or `.`
(a superset of the marker actually recognised by the splitter). -/
def looseMarkAt : List Char → Bool
  | 'Q' :: r =>
    (digitsDelim (r.dropWhile pws)).isSome ||
      (match r with
       | '.' :: r2 => (digitsDelim (r2.dropWhile pws)).isSome
       | _ => false)
  | _ => false

/-- No loose question-number marker at any line start of `t` (position 0
included). -/
def noMarkAfterNL : List Char → Bool
  | [] => true
  | '\n' :: r => !(looseMarkAt r) && noMarkAfterNL r
  | _ :: r => noMarkAfterNL r

def looseMarkerFree (t : List Char) : Bool := !(looseMarkAt t) && noMarkAfterNL t

/-! Concrete pipeline inputs used by the claims. -/

def c1input : List Char :=
  "...\nQ.1) What is X?\na) Opt1\nb) Opt2\nc) Opt3\nd) Opt4\nAns) c\nExp) c is the correct answer because Y. Subject:) Polity".toList

def c2input : List Char :=
  "p\nQ.1) q\na) 1\nb) 2\nc) 3\nd) 4\nAns) b\nExp) Note: d is the correct answer".toList

def c3input : List Char := "p\nQ.1) q\na) 1\nb) 2\nc) 3\nd) 4\nd) 5".toList

def c4input : List Char := "p\nQ.1) q\na) 1\nb) 2\nc) 3\nd) 4\nAns) a".toList

def c5input : List Char := "p\nQ.1) what".toList

def c7input : List Char := "p\nQ.1)  \nQ.2) q\na) 1\nb) 2\nc) 3\nd) 4\nAns) a".toList

/-- The full boilerplate block with empty lazy separators: a minimal match
of the address pattern. -/
def addrFull : List Char :=
  addrP1 ++ addrP2a ++ addrP2b ++ addrP3 ++ addrP4 ++ addrP5 ++ addrP6 ++ addrP7

/-- Splicing input: removing the embedded boilerplate match glues the
surrounding fragments into a fresh boilerplate match. -/
def c6input : List Char :=
  "Forum Learning Cen".toList ++ addrFull ++
  "tre : Delhi - Plot No. 36, 4th Floor (Above Kalyan Jewellers), Pusa Road, Karol Bagh, New Delhi - 110005".toList ++
  addrP2a ++ addrP2b ++ addrP3 ++ addrP4 ++ addrP5 ++ addrP6 ++ addrP7

/-- Splicing input: a boilerplate block sits between `Q` and `.1)`, so the
normalised text contains a question marker that the raw text does not. -/
def c10input : List Char := "x\nQ".toList ++ addrFull ++ ".1) q".toList

/-! Supporting lemmas for the claim theorems. -/

theorem processBlocksFrom_length :
    ∀ (i : Nat) (bs : List (List Char)), (processBlocksFrom i bs).length = bs.length := by
  intro i bs
  induction bs generalizing i with
  | nil => rfl
  | cons b bs ih => simp [processBlocksFrom, ih]

/-! Claim C1. -/

/-- C1: on the end-to-end example input, `parse_forum_ias` returns exactly
one record with id 1, the four options, correctAnswer 2, subject Polity,
and an explanation that contains "because Y." and not the "Subject:)"
metadata tag. -/
theorem c1_pipeline_end_to_end :
    parse_forum_ias c1input =
      [⟨1, "What is X?".toList,
        ["Opt1".toList, "Opt2".toList, "Opt3".toList, "Opt4".toList], 2,
        "c is the correct answer because Y.".toList, "Polity".toList, "GS".toList⟩]
    ∧ hasCS "because Y.".toList "c is the correct answer because Y.".toList = true
    ∧ hasCS "Subject:)".toList "c is the correct answer because Y.".toList = false := by
  decide

/-! Claim C3. -/

/-- C3, counterexample: a block whose option region contains five line-start
labels (`a b c d d`) yields a record with five options — the claimed
`len(options) == 4` invariant fails. -/
theorem c3_five_options_possible :
    (parse_forum_ias c3input).map (fun r => r.options.length) = [5] ∧ (5 : Nat) ≠ 4 := by
  refine ⟨by decide, by decide⟩

/-- C3, amended: every produced record has at least 4 options; fewer than 4
parsed options are padded with the `"-"` placeholder up to 4, but when more
than 4 labels are found the surplus is kept, so the length can exceed 4. -/
theorem c3_options_at_least_four (idx : Nat) (b : List Char) :
    4 ≤ (processBlock idx b).options.length := by
  simp only [processBlock, processStripped, optionsOf]
  simp [List.length_append, List.length_replicate]
  omega

/-! Claim C4. -/

/-- C4, counterexample: a block with no explanation region produces the
record explanation `"No explanation provided."`, not the empty string. -/
theorem c4_missing_explanation_not_empty :
    (parse_forum_ias c4input).map (fun r => r.explanation) = [noExplanation]
    ∧ noExplanation ≠ [] := by
  refine ⟨by decide, by decide⟩

/-- C4, amended: for every block in which no explanation tag is found, the
produced record's explanation field is the sentinel
`"No explanation provided."` (the empty extracted explanation is mapped to
the sentinel by `format_explanation`). -/
theorem c4_missing_explanation_sentinel (idx : Nat) (b : List Char)
    (h : findExpTag (stripBoth b) = none) :
    (processBlock idx b).explanation = noExplanation := by
  simp only [processBlock, processStripped, explanationFieldOf, extractExplanation, h]
  decide

theorem c4_missing_explanation_witness :
    findExpTag (stripBoth "q\na) 1\nb) 2".toList) = none
    ∧ (processBlock 0 "q\na) 1\nb) 2".toList).explanation = noExplanation :=
  ⟨by decide, c4_missing_explanation_sentinel 0 "q\na) 1\nb) 2".toList (by decide)⟩

/-! Claim C5. -/

/-- C5, counterexample: on a block with no option-region start the record's
text is the sentinel `"Error parsing question text."`, which differs from
the claimed literal `"Error parsing question."`. -/
theorem c5_error_sentinel_differs :
    (parse_forum_ias c5input).map (fun r => r.text) = [errText]
    ∧ errText ≠ "Error parsing question.".toList := by
  refine ⟨by decide, by decide⟩

/-- C5, amended: a block with no option-region start still produces a
record: its text is the sentinel `"Error parsing question text."`, its
options are four identical `"Parse Error"` strings, and processing always
continues (one record per block, for every block list). -/
theorem c5_segmentation_failure_record (idx : Nat) (b : List Char)
    (h : findOptSplit (stripBoth b) = none) :
    (processBlock idx b).text = errText
    ∧ (processBlock idx b).options =
        [parseErrorOpt, parseErrorOpt, parseErrorOpt, parseErrorOpt]
    ∧ ∀ (i : Nat) (bs : List (List Char)),
        (processBlocksFrom i bs).length = bs.length := by
  refine ⟨?_, ?_, processBlocksFrom_length⟩
  · simp [processBlock, processStripped, qTextOf, h]
  · simp [processBlock, processStripped, optionsOf, optionsPre, h]

theorem c5_segmentation_failure_witness :
    findOptSplit (stripBoth "what".toList) = none
    ∧ ((processBlock 0 "what".toList).text = errText
        ∧ (processBlock 0 "what".toList).options =
            [parseErrorOpt, parseErrorOpt, parseErrorOpt, parseErrorOpt]
        ∧ ∀ (i : Nat) (bs : List (List Char)),
            (processBlocksFrom i bs).length = bs.length) :=
  ⟨by decide, c5_segmentation_failure_record 0 "what".toList (by decide)⟩

/-! Claim C7. -/

/-- C7, counterexample: an all-whitespace chunk between two question
markers is not dropped: it produces an error-sentinel record and consumes
id slot 1, and the following real question gets id 2. -/
theorem c7_ws_chunk_not_dropped :
    (parse_forum_ias c7input).map (fun r => (r.id, r.text)) =
      [(1, errText), (2, "q".toList)] := by
  decide

/-- C7, amended: a chunk that strips to the empty string is retained: it
yields the full error-sentinel record (error text, four `"Parse Error"`
options, unresolved answer, explanation sentinel, default subject and
topic) and consumes its sequential id slot. -/
theorem c7_ws_chunk_error_record (idx : Nat) (b : List Char)
    (h : stripBoth b = []) :
    processBlock idx b =
      ⟨idx + 1, errText, [parseErrorOpt, parseErrorOpt, parseErrorOpt, parseErrorOpt],
       -1, noExplanation, "General".toList, "GS".toList⟩ := by
  simp only [processBlock, h, processStripped, QuestionRecord.mk.injEq]
  refine ⟨trivial, ?_, ?_, ?_, ?_, ?_, ?_⟩ <;> decide

theorem c7_ws_chunk_witness :
    stripBoth "  \t ".toList = []
    ∧ processBlock 4 "  \t ".toList =
        ⟨5, errText, [parseErrorOpt, parseErrorOpt, parseErrorOpt, parseErrorOpt],
         -1, noExplanation, "General".toList, "GS".toList⟩ :=
  ⟨by decide, c7_ws_chunk_error_record 4 "  \t ".toList (by decide)⟩

/-! Claim C2. -/

/-- C2, counterexample: a block whose extracted explanation merely contains
"d is the correct answer" (not at its start) together with the tag
`Ans) b` resolves to 1, not 3 — the answer-in-explanation pattern is
anchored with `re.match`, so "contains" is not sufficient. -/
theorem c2_contains_not_sufficient :
    (parse_forum_ias c2input).map
        (fun r => (r.correctAnswer, hasCS "d is the correct answer".toList r.explanation)) =
      [(1, true)]
    ∧ (1 : Int) ≠ 3 := by
  refine ⟨by decide, by decide⟩

/-- C2, amended: whenever the anchored pattern
`(Option )?<letter a-d> is the correct answer` matches at the start of the
extracted explanation, the captured letter is authoritative: the record's
correctAnswer is that letter's index, regardless of any answer tag in the
block. -/
theorem c2_explanation_priority_anchored (idx : Nat) (b : List Char) (c : Char)
    (h : expAnsMatch (extractExplanation (stripBoth b)) = some c) :
    (processBlock idx b).correctAnswer = letterIdx c.toLower := by
  simp [processBlock, processStripped, answerOf, resolveAnswer, h]

theorem c2_explanation_priority_witness :
    expAnsMatch (extractExplanation (stripBoth "q\nAns) b\nExp) d is the correct answer".toList)) = some 'd'
    ∧ (processBlock 0 "q\nAns) b\nExp) d is the correct answer".toList).correctAnswer = 3 := by
  refine ⟨by decide, ?_⟩
  rw [c2_explanation_priority_anchored 0 "q\nAns) b\nExp) d is the correct answer".toList 'd' (by decide)]
  decide

/-! Claim C6. -/

/-- C6, counterexample: removing a boilerplate match can splice the
surrounding text into a fresh boilerplate match, which a second
normalisation pass then removes — `clean_garbage_text` is not idempotent. -/
theorem c6_clean_not_idempotent :
    clean_garbage_text (clean_garbage_text c6input) ≠ clean_garbage_text c6input := by
  decide

theorem addressSub_id {t : List Char} (h : hasCI addrP1 t = false) :
    addressSub t = t := by
  have hb : ciBreak addrP1 t = none := by
    cases hcb : ciBreak addrP1 t with
    | none => rfl
    | some q => rw [hasCI, hcb] at h; simp at h
  simp [addressSub, addressSubGo, hb]

theorem splitNL_ne_nil (t : List Char) : splitNL t ≠ [] := by
  induction t with
  | nil => simp [splitNL]
  | cons c r ih =>
    simp only [splitNL]
    split
    · simp
    · split
      · simp
      · simp

theorem joinNL_splitNL : ∀ t : List Char, joinNL (splitNL t) = t := by
  intro t
  induction t with
  | nil => rfl
  | cons c r ih =>
    simp only [splitNL]
    split
    · rename_i hc
      subst hc
      cases hs : splitNL r with
      | nil => exact absurd hs (splitNL_ne_nil r)
      | cons l ls =>
        rw [hs] at ih
        simp only [joinNL]
        rw [ih]
        rfl
    · cases hs : splitNL r with
      | nil => exact absurd hs (splitNL_ne_nil r)
      | cons l ls =>
        rw [hs] at ih
        cases ls with
        | nil =>
          simp only [joinNL] at ih ⊢
          rw [ih]
        | cons l2 ls2 =>
          simp only [joinNL] at ih ⊢
          rw [List.cons_append, ih]

theorem map_id_on {α : Type} (f : α → α) :
    ∀ (ls : List α), (∀ l ∈ ls, f l = l) → ls.map f = ls := by
  intro ls h
  induction ls with
  | nil => rfl
  | cons l ls ih =>
    simp only [List.map_cons]
    rw [h l (by simp), ih (fun x hx => h x (by simp [hx]))]

theorem sfgSub_id {t : List Char}
    (h : ((splitNL t).all fun l => !(sfgTag.isPrefixOf l)) = true) :
    sfgSub t = t := by
  unfold sfgSub
  have h2 := List.all_eq_true.mp h
  rw [map_id_on _ _ (fun l hl => by
    have := h2 l hl
    simp at this
    simp [this])]
  exact joinNL_splitNL t

theorem collapseGo_id : ∀ (fuel : Nat) (t : List Char),
    hasTripleNL t = false → collapseGo fuel t = t := by
  intro fuel
  induction fuel with
  | zero => intro t _; rfl
  | succ n ih =>
    intro t h
    simp only [collapseGo]
    split
    · rename_i r
      rw [hasTripleNL] at h
      simp [tripleAt] at h
    · rename_i c r hne
      rw [hasTripleNL] at h
      simp only [Bool.or_eq_false_iff] at h
      rw [ih r h.2]
    · rfl

/-- Normalisation is the identity on texts free of all three removable
patterns (no boilerplate start phrase, no SFG-2026 line, no triple
newline). -/
theorem clean_id {t : List Char}
    (h1 : hasCI addrP1 t = false)
    (h2 : ((splitNL t).all fun l => !(sfgTag.isPrefixOf l)) = true)
    (h3 : hasTripleNL t = false) :
    clean_garbage_text t = t := by
  unfold clean_garbage_text
  rw [addressSub_id h1, sfgSub_id h2]
  unfold collapseNL
  exact collapseGo_id _ _ h3

/-- C6, amended: the normaliser is not idempotent in general (removal can
splice fragments into a new boilerplate match), but it is the identity —
hence idempotent — on texts containing none of the removable patterns: no
case-insensitive occurrence of the boilerplate start phrase, no line
starting with `SFG 2026`, and no run of three newlines. -/
theorem c6_clean_idempotent_on_clean (t : List Char)
    (h1 : hasCI addrP1 t = false)
    (h2 : ((splitNL t).all fun l => !(sfgTag.isPrefixOf l)) = true)
    (h3 : hasTripleNL t = false) :
    clean_garbage_text (clean_garbage_text t) = clean_garbage_text t := by
  rw [clean_id h1 h2 h3]
  exact clean_id h1 h2 h3

theorem c6_clean_idempotent_witness :
    (hasCI addrP1 "Q. hello\n\nworld SFG".toList = false
      ∧ ((splitNL "Q. hello\n\nworld SFG".toList).all fun l => !(sfgTag.isPrefixOf l)) = true
      ∧ hasTripleNL "Q. hello\n\nworld SFG".toList = false)
    ∧ clean_garbage_text (clean_garbage_text "Q. hello\n\nworld SFG".toList) =
        clean_garbage_text "Q. hello\n\nworld SFG".toList :=
  ⟨⟨by decide, by decide, by decide⟩,
   c6_clean_idempotent_on_clean _ (by decide) (by decide) (by decide)⟩

/-! Claim C10. -/

/-- C10, counterexample: the raw input contains no question-number marker
(under the specification's loose description of the marker, at any line
start), yet the pipeline output is non-empty: normalisation removes a
boilerplate block sitting between `Q` and `.1)`, splicing a marker into
the normalised text. -/
theorem c10_clean_can_create_marker :
    looseMarkerFree c10input = true ∧ parse_forum_ias c10input ≠ [] := by
  refine ⟨by decide, by decide⟩

theorem splitQGo_no_marker :
    ∀ (fuel : Nat) (acc t : List Char), hasQMarker t = false →
      splitQGo fuel acc t = [acc.reverse ++ t] := by
  intro fuel
  induction fuel with
  | zero =>
    intro acc t _
    cases t with
    | nil => simp [splitQGo]
    | cons c r => rfl
  | succ n ih =>
    intro acc t h
    cases t with
    | nil => simp [splitQGo]
    | cons c r =>
      rw [hasQMarker] at h
      simp only [Bool.or_eq_false_iff] at h
      have hm : tryQMark (c :: r) = none := by
        cases hq : tryQMark (c :: r) with
        | none => rfl
        | some u => rw [hq] at h; simp at h
      simp only [splitQGo, hm]
      rw [ih (c :: acc) r h.2]
      simp

/-- C10, amended: for every input whose NORMALISED text contains no match
of the splitting pattern `\nQ\.\s*\d+[\)\.]`, the pipeline returns the
empty record sequence (the single chunk is treated as preamble and
discarded).  Quantifying over the raw input text is wrong, because
normalisation can splice a marker out of fragments (see the
counterexample). -/
theorem c10_no_marker_empty_output (t : List Char)
    (h : hasQMarker (clean_garbage_text t) = false) :
    parse_forum_ias t = [] := by
  unfold parse_forum_ias splitQ
  rw [splitQGo_no_marker _ _ _ h]
  rfl

theorem c10_no_marker_witness :
    hasQMarker (clean_garbage_text "hello Q world, no marker here".toList) = false
    ∧ parse_forum_ias "hello Q world, no marker here".toList = [] :=
  ⟨by decide, c10_no_marker_empty_output _ (by decide)⟩

/-! Claim C8. -/

/-- C8, counterexample: re-applying the formatter re-wraps an already
wrapped milestone phrase, so `format_explanation` is not idempotent. -/
theorem c8_format_not_idempotent :
    format_explanation (format_explanation "Thus,".toList) ≠
      format_explanation "Thus,".toList := by
  decide

theorem hasCI_cons {p : List Char} {c : Char} {r : List Char}
    (h : hasCI p (c :: r) = false) :
    ciMatch p (c :: r) = false ∧ hasCI p r = false := by
  simp only [hasCI, ciBreak] at h ⊢
  split at h
  · simp at h
  · rename_i hm
    constructor
    · simpa using hm
    · simpa using h

theorem hasCS_cons {p : List Char} {c : Char} {r : List Char}
    (h : hasCS p (c :: r) = false) :
    csMatch p (c :: r) = false ∧ hasCS p r = false := by
  simp only [hasCS, csBreak] at h ⊢
  split at h
  · simp at h
  · rename_i hm
    constructor
    · simpa using hm
    · simpa using h

theorem litReplGo_id {kw : List Char} :
    ∀ (fuel : Nat) (t : List Char), hasCI kw t = false → litReplGo kw fuel t = t := by
  intro fuel
  induction fuel with
  | zero =>
    intro t _
    cases t with
    | nil => rfl
    | cons c r => rfl
  | succ n ih =>
    intro t h
    cases t with
    | nil => rfl
    | cons c r =>
      obtain ⟨hm, hr⟩ := hasCI_cons h
      simp only [litReplGo]
      rw [if_neg (by simp [hm]), ih r hr]

theorem litRepl_id {kw t : List Char} (h : hasCI kw t = false) : litRepl kw t = t :=
  litReplGo_id _ t h

theorem hasHence_cons {c : Char} {r : List Char}
    (h : hasHence (c :: r) = false) :
    tryHence (c :: r) = none ∧ hasHence r = false := by
  rw [hasHence] at h
  simp only [Bool.or_eq_false_iff] at h
  exact ⟨by simpa using h.1, h.2⟩

theorem henceReplGo_id :
    ∀ (fuel : Nat) (t : List Char), hasHence t = false → henceReplGo fuel t = t := by
  intro fuel
  induction fuel with
  | zero =>
    intro t _
    cases t with
    | nil => rfl
    | cons c r => rfl
  | succ n ih =>
    intro t h
    cases t with
    | nil => rfl
    | cons c r =>
      obtain ⟨hm, hr⟩ := hasHence_cons h
      simp only [henceReplGo, hm]
      rw [ih r hr]

theorem henceRepl_id {t : List Char} (h : hasHence t = false) : henceRepl t = t :=
  henceReplGo_id _ t h

theorem strReplaceGo_id {pat rep : List Char} :
    ∀ (fuel : Nat) (t : List Char), hasCS pat t = false →
      strReplaceGo pat rep fuel t = t := by
  intro fuel
  induction fuel with
  | zero =>
    intro t _
    cases t with
    | nil => rfl
    | cons c r => rfl
  | succ n ih =>
    intro t h
    cases t with
    | nil => rfl
    | cons c r =>
      obtain ⟨hm, hr⟩ := hasCS_cons h
      simp only [strReplaceGo]
      rw [if_neg (by simp [hm]), ih r hr]

theorem strReplace_id {pat rep t : List Char} (h : hasCS pat t = false) :
    strReplace pat rep t = t :=
  strReplaceGo_id _ t h

theorem listReplGo_id :
    ∀ (fuel : Nat) (t : List Char), '\n' ∉ t → listReplGo fuel t = t := by
  intro fuel
  induction fuel with
  | zero =>
    intro t _
    cases t with
    | nil => rfl
    | cons c r => rfl
  | succ n ih =>
    intro t h
    cases t with
    | nil => rfl
    | cons c r =>
      have hc : c ≠ '\n' := fun hh => h (by simp [hh])
      have hr : '\n' ∉ r := fun hh => h (by simp [hh])
      simp only [listReplGo, tryListItem, if_neg hc]
      rw [ih r hr]

theorem listRepl_id {t : List Char} (h : '\n' ∉ t) : listRepl t = t :=
  listReplGo_id _ t h

theorem kwSub_id {k : KwPat} {t : List Char} (h : kwAbsent k t = true) :
    kwSub k t = t := by
  cases k with
  | lit kw =>
    simp only [kwAbsent] at h
    exact litRepl_id (by simpa using h)
  | henceOpt =>
    simp only [kwAbsent] at h
    exact henceRepl_id (by simpa using h)

theorem foldl_kwSub_id :
    ∀ (ks : List KwPat) (t : List Char), (∀ k ∈ ks, kwAbsent k t = true) →
      ks.foldl (fun acc k => kwSub k acc) t = t := by
  intro ks
  induction ks with
  | nil => intro t _; rfl
  | cons k ks ih =>
    intro t h
    simp only [List.foldl_cons]
    rw [kwSub_id (h k (by simp))]
    exact ih t (fun x hx => h x (by simp [hx]))

/-- The formatter is the identity on non-empty trimmed texts free of every
milestone keyword, of newlines, and of `<br><br><br>` runs. -/
theorem format_id {t : List Char}
    (h0 : stripBoth t = t) (h1 : t ≠ [])
    (h2 : kwFree t = true) (h3 : '\n' ∉ t)
    (h4 : hasCS "<br><br><br>".toList t = false) :
    format_explanation t = t := by
  unfold format_explanation
  rw [if_neg h1]
  rw [foldl_kwSub_id formatKeywords t (List.all_eq_true.mp h2)]
  rw [listRepl_id h3, strReplace_id h4, h0]

/-- C8, amended: the formatter is not idempotent in general (each pass
re-wraps milestone phrases, and whitespace-only text is mapped to the
no-explanation sentinel); it is idempotent on non-empty, trimmed texts
that contain no milestone keyword (case-insensitively), no newline (hence
no list-item token) and no `<br><br><br>` run — on those it acts as the
identity. -/
theorem c8_format_idempotent_on_plain (t : List Char)
    (h0 : stripBoth t = t) (h1 : t ≠ [])
    (h2 : kwFree t = true) (h3 : '\n' ∉ t)
    (h4 : hasCS "<br><br><br>".toList t = false) :
    format_explanation (format_explanation t) = format_explanation t := by
  rw [format_id h0 h1 h2 h3 h4]
  exact format_id h0 h1 h2 h3 h4

theorem c8_format_idempotent_witness :
    (stripBoth "hello world".toList = "hello world".toList
      ∧ "hello world".toList ≠ []
      ∧ kwFree "hello world".toList = true
      ∧ '\n' ∉ "hello world".toList
      ∧ hasCS "<br><br><br>".toList "hello world".toList = false)
    ∧ format_explanation (format_explanation "hello world".toList) =
        format_explanation "hello world".toList :=
  ⟨⟨by decide, by decide, by decide, by decide, by decide⟩,
   c8_format_idempotent_on_plain _ (by decide) (by decide) (by decide) (by decide) (by decide)⟩

/-! Claim C9: supporting development. -/

/-- C9's input source: the per-page artifact removal of
`extract_text_from_pdf`, applied to a page built from safe segments
(no bracket or dash characters) interleaved with artifacts of the two
removable shapes. -/
def pageChunk (w1 w2 ds w3 : List Char) : List Char :=
  '-' :: '-' :: '-' :: (w1 ++ pageLit ++ w2 ++ ds ++ w3 ++ ['-', '-', '-'])

/-- Well-formed page text: safe characters, bracketed page numbers, and
page separators, concatenated. -/
inductive PageShape : List Char → Prop where
  | nil : PageShape []
  | chr {c : Char} {t : List Char} :
      c ≠ '[' → c ≠ ']' → c ≠ '-' → PageShape t → PageShape (c :: t)
  | art1 {ds t : List Char} :
      ds ≠ [] → (∀ d ∈ ds, d.isDigit) → PageShape t →
      PageShape ('[' :: (ds ++ ']' :: t))
  | art2 {w1 w2 w3 ds t : List Char} :
      (∀ c ∈ w1, pws c) → (∀ c ∈ w2, pws c) → (∀ c ∈ w3, pws c) →
      ds ≠ [] → (∀ d ∈ ds, d.isDigit) → PageShape t →
      PageShape (pageChunk w1 w2 ds w3 ++ t)

/-- The shape remaining after the bracketed-number removal. -/
inductive MidShape : List Char → Prop where
  | nil : MidShape []
  | chr {c : Char} {t : List Char} :
      c ≠ '[' → c ≠ ']' → c ≠ '-' → MidShape t → MidShape (c :: t)
  | art2 {w1 w2 w3 ds t : List Char} :
      (∀ c ∈ w1, pws c) → (∀ c ∈ w2, pws c) → (∀ c ∈ w3, pws c) →
      ds ≠ [] → (∀ d ∈ ds, d.isDigit) → MidShape t →
      MidShape (pageChunk w1 w2 ds w3 ++ t)

theorem pws_char_props {c : Char} (h : pws c = true) :
    c ≠ '[' ∧ c ≠ '-' ∧ c ≠ 'P' ∧ c.isDigit = false := by
  have h2 : c = ' ' ∨ c = '\t' ∨ c = '\n' ∨ c = '\r' ∨ c = '\x0b' ∨ c = '\x0c' := by
    simpa [pws, or_assoc] using h
  rcases h2 with h2 | h2 | h2 | h2 | h2 | h2 <;> subst h2 <;>
    exact ⟨by decide, by decide, by decide, by decide⟩

theorem digit_char_props {c : Char} (h : c.isDigit = true) :
    c ≠ '[' ∧ c ≠ '-' ∧ c ≠ ']' ∧ pws c = false := by
  refine ⟨?_, ?_, ?_, ?_⟩
  · intro he; subst he; exact absurd h (by decide)
  · intro he; subst he; exact absurd h (by decide)
  · intro he; subst he; exact absurd h (by decide)
  · cases hp : pws c with
    | false => rfl
    | true =>
      rw [(pws_char_props hp).2.2.2] at h
      exact absurd h (by simp)

theorem takeWhile_all_append {p : Char → Bool} {ds : List Char} {x : Char} {u : List Char}
    (hds : ∀ a ∈ ds, p a = true) (hx : p x = false) :
    (ds ++ x :: u).takeWhile p = ds := by
  induction ds with
  | nil => simp [List.takeWhile_cons, hx]
  | cons d ds ih =>
    have hd : p d = true := hds d (by simp)
    simp only [List.cons_append, List.takeWhile_cons, hd]
    simp only [if_true]
    rw [ih (fun a ha => hds a (by simp [ha]))]

theorem dropWhile_all_append {w u : List Char} (hw : ∀ c ∈ w, pws c = true) :
    (w ++ u).dropWhile pws = u.dropWhile pws := by
  induction w with
  | nil => simp
  | cons c w ih =>
    have hc : pws c = true := hw c (by simp)
    simp only [List.cons_append, List.dropWhile_cons, hc]
    simp only [if_true]
    exact ih (fun a ha => hw a (by simp [ha]))

theorem isPrefixOf_append_self : ∀ (l u : List Char), l.isPrefixOf (l ++ u) = true := by
  intro l u
  induction l with
  | nil => simp [List.isPrefixOf]
  | cons c l ih => simpa [List.isPrefixOf] using ih

theorem digitsThenRB_exact {ds t : List Char}
    (h1 : ds ≠ []) (h2 : ∀ d ∈ ds, d.isDigit) :
    digitsThenRB (ds ++ ']' :: t) = some t := by
  unfold digitsThenRB
  rw [takeWhile_all_append (fun a ha => h2 a ha) (by decide)]
  rw [if_neg (by simpa [List.isEmpty_iff] using h1)]
  rw [List.drop_left]
  rfl

theorem bracketSubGo_fi :
    ∀ (f1 f2 : Nat) (t : List Char), t.length < f1 → t.length < f2 →
      bracketSubGo f1 t = bracketSubGo f2 t := by
  intro f1
  induction f1 with
  | zero => intro f2 t h1 _; exact absurd h1 (by omega)
  | succ n ih =>
    intro f2 t h1 h2
    cases t with
    | nil =>
      cases f2 with
      | zero => rfl
      | succ m => rfl
    | cons c r =>
      cases f2 with
      | zero => exact absurd h2 (by omega)
      | succ m =>
        simp only [bracketSubGo]
        by_cases hc : c = '['
        · rw [if_pos hc, if_pos hc]
          cases hd : digitsThenRB r with
          | some rest =>
            simp only [hd]
            have hlt := digitsThenRB_length hd
            simp only [List.length_cons] at h1 h2
            exact ih m rest (by omega) (by omega)
          | none =>
            simp only [hd]
            simp only [List.length_cons] at h1 h2
            exact congrArg (c :: ·) (ih m r (by omega) (by omega))
        · rw [if_neg hc, if_neg hc]
          simp only [List.length_cons] at h1 h2
          rw [ih m r (by omega) (by omega)]

theorem bracketSub_cons {c : Char} {t : List Char} (hc : c ≠ '[') :
    bracketSub (c :: t) = c :: bracketSub t := by
  show bracketSubGo ((c :: t).length + 1) (c :: t) = c :: bracketSubGo (t.length + 1) t
  simp only [List.length_cons]
  simp only [bracketSubGo, if_neg hc]

theorem bracketSub_art1 {ds t : List Char}
    (h1 : ds ≠ []) (h2 : ∀ d ∈ ds, d.isDigit) :
    bracketSub ('[' :: (ds ++ ']' :: t)) = bracketSub t := by
  show bracketSubGo (('[' :: (ds ++ ']' :: t)).length + 1) ('[' :: (ds ++ ']' :: t)) = _
  simp only [List.length_cons]
  simp only [bracketSubGo, if_pos rfl]
  rw [digitsThenRB_exact h1 h2]
  apply bracketSubGo_fi
  · simp [List.length_append]
    omega
  · omega

theorem bracketSub_append_safe {xs : List Char} (hx : ∀ c ∈ xs, c ≠ '[') :
    ∀ t, bracketSub (xs ++ t) = xs ++ bracketSub t := by
  induction xs with
  | nil => intro t; simp
  | cons x xs ih =>
    intro t
    rw [List.cons_append, bracketSub_cons (hx x (by simp))]
    rw [ih (fun c hc => hx c (by simp [hc])) t]
    rfl

theorem pageChunk_no_open {w1 w2 w3 ds : List Char}
    (hw1 : ∀ c ∈ w1, pws c) (hw2 : ∀ c ∈ w2, pws c) (hw3 : ∀ c ∈ w3, pws c)
    (hd : ∀ d ∈ ds, d.isDigit) :
    ∀ c ∈ pageChunk w1 w2 ds w3, c ≠ '[' := by
  intro c hc heq
  subst heq
  simp only [pageChunk, pageLit, List.mem_cons, List.mem_append] at hc
  simp at hc
  rw [or_assoc, or_assoc] at hc
  rcases hc with h | h | h | h
  · exact absurd (hw1 _ h) (by decide)
  · exact absurd (hw2 _ h) (by decide)
  · exact absurd (hd _ h) (by decide)
  · exact absurd (hw3 _ h) (by decide)

/-- Removing the `\[\d+\]` artifacts from a well-formed page leaves safe
characters and page separators. -/
theorem bracketSub_shape : ∀ {t : List Char}, PageShape t → MidShape (bracketSub t) := by
  intro t h
  induction h with
  | nil => exact MidShape.nil
  | chr hc1 hc2 hc3 _ ih =>
    rw [bracketSub_cons hc1]
    exact MidShape.chr hc1 hc2 hc3 ih
  | art1 h1 h2 _ ih =>
    rw [bracketSub_art1 h1 h2]
    exact ih
  | art2 hw1 hw2 hw3 hd1 hd2 _ ih =>
    rw [bracketSub_append_safe (pageChunk_no_open hw1 hw2 hw3 hd2)]
    exact MidShape.art2 hw1 hw2 hw3 hd1 hd2 ih

theorem pageTagSubGo_fi :
    ∀ (f1 f2 : Nat) (t : List Char), t.length < f1 → t.length < f2 →
      pageTagSubGo f1 t = pageTagSubGo f2 t := by
  intro f1
  induction f1 with
  | zero => intro f2 t h1 _; exact absurd h1 (by omega)
  | succ n ih =>
    intro f2 t h1 h2
    cases t with
    | nil =>
      cases f2 with
      | zero => rfl
      | succ m => rfl
    | cons c r =>
      cases f2 with
      | zero => exact absurd h2 (by omega)
      | succ m =>
        simp only [pageTagSubGo]
        cases hd : tryPageTag (c :: r) with
        | some rest =>
          simp only [hd]
          have hlt := tryPageTag_length hd
          simp only [List.length_cons] at h1 h2 hlt
          exact ih m rest (by omega) (by omega)
        | none =>
          simp only [hd]
          simp only [List.length_cons] at h1 h2
          exact congrArg (c :: ·) (ih m r (by omega) (by omega))

theorem tryPageTag_none_head {c : Char} {t : List Char} (hc : c ≠ '-') :
    tryPageTag (c :: t) = none := by
  cases t with
  | nil => rfl
  | cons d u =>
    cases u with
    | nil => rfl
    | cons e v =>
      simp only [tryPageTag]
      rw [if_neg (fun hh => hc hh.1)]

theorem pageTagSub_cons {c : Char} {t : List Char} (hc : c ≠ '-') :
    pageTagSub (c :: t) = c :: pageTagSub t := by
  show pageTagSubGo ((c :: t).length + 1) (c :: t) = c :: pageTagSubGo (t.length + 1) t
  simp only [List.length_cons]
  simp only [pageTagSubGo, tryPageTag_none_head hc]

theorem tryPageTag_chunk {w1 w2 w3 ds t : List Char}
    (hw1 : ∀ c ∈ w1, pws c) (hw2 : ∀ c ∈ w2, pws c) (hw3 : ∀ c ∈ w3, pws c)
    (hds : ds ≠ []) (hd : ∀ d ∈ ds, d.isDigit) :
    tryPageTag (pageChunk w1 w2 ds w3 ++ t) = some t := by
  have hshape : pageChunk w1 w2 ds w3 ++ t =
      '-' :: '-' :: '-' ::
        (w1 ++ (pageLit ++ (w2 ++ (ds ++ (w3 ++ ('-' :: '-' :: '-' :: t)))))) := by
    simp [pageChunk, List.append_assoc]
  rw [hshape]
  simp only [tryPageTag]
  rw [if_pos (by simp)]
  have hdw1 : (w1 ++ (pageLit ++ (w2 ++ (ds ++ (w3 ++ ('-' :: '-' :: '-' :: t)))))).dropWhile pws
      = pageLit ++ (w2 ++ (ds ++ (w3 ++ ('-' :: '-' :: '-' :: t)))) := by
    rw [dropWhile_all_append hw1]
    rw [show pageLit ++ (w2 ++ (ds ++ (w3 ++ ('-' :: '-' :: '-' :: t)))) =
        'P' :: ('A' :: 'G' :: 'E' :: (w2 ++ (ds ++ (w3 ++ ('-' :: '-' :: '-' :: t)))))
      from rfl]
    rw [List.dropWhile_cons_of_neg (by decide)]
  rw [hdw1]
  rw [if_pos (isPrefixOf_append_self pageLit _)]
  rw [show (pageLit ++ (w2 ++ (ds ++ (w3 ++ ('-' :: '-' :: '-' :: t))))).drop 4 =
      w2 ++ (ds ++ (w3 ++ ('-' :: '-' :: '-' :: t))) from rfl]
  rw [dropWhile_all_append hw2]
  obtain ⟨d, ds', rfl⟩ : ∃ d ds', ds = d :: ds' := by
    cases ds with
    | nil => exact absurd rfl hds
    | cons d ds' => exact ⟨d, ds', rfl⟩
  have hdd := hd d (by simp)
  rw [show (d :: ds') ++ (w3 ++ ('-' :: '-' :: '-' :: t)) =
      d :: (ds' ++ (w3 ++ ('-' :: '-' :: '-' :: t))) from rfl]
  rw [List.dropWhile_cons_of_neg (by simp [(digit_char_props hdd).2.2.2])]
  obtain ⟨x, u', hxu, hx⟩ :
      ∃ x u', w3 ++ ('-' :: '-' :: '-' :: t) = x :: u' ∧ x.isDigit = false := by
    cases w3 with
    | nil => exact ⟨'-', '-' :: '-' :: t, rfl, by decide⟩
    | cons w w3' =>
      exact ⟨w, w3' ++ ('-' :: '-' :: '-' :: t), rfl,
        (pws_char_props (hw3 w (by simp))).2.2.2⟩
  unfold pageTagTail
  rw [show d :: (ds' ++ (w3 ++ ('-' :: '-' :: '-' :: t))) =
      (d :: ds') ++ (w3 ++ ('-' :: '-' :: '-' :: t)) from rfl]
  rw [hxu]
  rw [takeWhile_all_append (fun a ha => hd a ha) hx]
  rw [if_neg (by simp [List.isEmpty_iff])]
  rw [List.drop_left]
  rw [← hxu]
  rw [dropWhile_all_append hw3]
  rw [List.dropWhile_cons_of_neg (by decide)]
  rfl

theorem pageTagSub_step {u t2 : List Char} (h : tryPageTag u = some t2) :
    pageTagSub u = pageTagSub t2 := by
  cases u with
  | nil => simp [tryPageTag] at h
  | cons c r =>
    have hlt := tryPageTag_length h
    unfold pageTagSub
    simp only [List.length_cons]
    rw [show pageTagSubGo (r.length + 1 + 1) (c :: r) =
        (match tryPageTag (c :: r) with
         | some rest => pageTagSubGo (r.length + 1) rest
         | none => c :: pageTagSubGo (r.length + 1) r) from rfl]
    rw [h]
    apply pageTagSubGo_fi
    · simp only [List.length_cons] at hlt
      omega
    · omega

theorem pageTagSub_chunk {w1 w2 w3 ds t : List Char}
    (hw1 : ∀ c ∈ w1, pws c) (hw2 : ∀ c ∈ w2, pws c) (hw3 : ∀ c ∈ w3, pws c)
    (hds : ds ≠ []) (hd : ∀ d ∈ ds, d.isDigit) :
    pageTagSub (pageChunk w1 w2 ds w3 ++ t) = pageTagSub t :=
  pageTagSub_step (tryPageTag_chunk hw1 hw2 hw3 hds hd)

theorem pageTagSub_no_bad : ∀ {u : List Char}, MidShape u →
    '[' ∉ pageTagSub u ∧ '-' ∉ pageTagSub u := by
  intro u h
  induction h with
  | nil => constructor <;> simp [pageTagSub, pageTagSubGo]
  | chr hc1 hc2 hc3 _ ih =>
    rw [pageTagSub_cons hc3]
    constructor
    · simp only [List.mem_cons]
      rintro (he | he)
      · exact hc1 he.symm
      · exact ih.1 he
    · simp only [List.mem_cons]
      rintro (he | he)
      · exact hc3 he.symm
      · exact ih.2 he
  | art2 hw1 hw2 hw3 hd1 hd2 _ ih =>
    rw [pageTagSub_chunk hw1 hw2 hw3 hd1 hd2]
    exact ih

theorem hasBracketArtifact_mem {v : List Char}
    (h : hasBracketArtifact v = true) : '[' ∈ v := by
  induction v with
  | nil => simp [hasBracketArtifact] at h
  | cons c r ih =>
    rw [hasBracketArtifact] at h
    simp only [Bool.or_eq_true, Bool.and_eq_true] at h
    rcases h with ⟨h1, _⟩ | h2
    · simp only [decide_eq_true_eq] at h1
      simp [h1]
    · simp [ih h2]

theorem hasPageArtifact_mem {v : List Char}
    (h : hasPageArtifact v = true) : '-' ∈ v := by
  induction v with
  | nil => simp [hasPageArtifact] at h
  | cons c r ih =>
    rw [hasPageArtifact] at h
    simp only [Bool.or_eq_true] at h
    rcases h with h1 | h2
    · by_cases hc : c = '-'
      · simp [hc]
      · rw [tryPageTag_none_head hc] at h1
        simp at h1
    · simp [ih h2]

def c9input : List Char := "[1]".toList

/-- C9, counterexample: page-number artifact removal is not performed by
the normaliser: `clean_garbage_text` leaves the input `[1]` unchanged,
so its output contains a `[<digits>]` artifact that was present in the
input. -/
theorem c9_normalizer_keeps_artifacts :
    clean_garbage_text c9input = c9input ∧ hasBracketArtifact c9input = true := by
  refine ⟨by decide, by decide⟩

/-- C9, amended: page-number artifact removal happens per page in the
extraction stage (`extract_text_from_pdf`), not in the normaliser; for
every well-formed page text (safe characters free of brackets and dashes,
interleaved with artifacts of the two removable shapes) the extraction
stage's cleaned output contains no artifact of either shape. -/
theorem c9_page_extraction_removes_artifacts (t : List Char) (h : PageShape t) :
    hasBracketArtifact (extract_page_clean t) = false
    ∧ hasPageArtifact (extract_page_clean t) = false := by
  have hb := pageTagSub_no_bad (bracketSub_shape h)
  unfold extract_page_clean
  constructor
  · cases hh : hasBracketArtifact (pageTagSub (bracketSub t)) with
    | false => rfl
    | true => exact absurd (hasBracketArtifact_mem hh) hb.1
  · cases hh : hasPageArtifact (pageTagSub (bracketSub t)) with
    | false => rfl
    | true => exact absurd (hasPageArtifact_mem hh) hb.2

def c9shaped : List Char :=
  'x' :: ('[' :: (['2'] ++ ']' :: (pageChunk [' '] [' '] ['7'] [] ++ ['y'])))

theorem c9shaped_shape : PageShape c9shaped := by
  refine PageShape.chr (by decide) (by decide) (by decide) ?_
  refine PageShape.art1 (by decide) (by decide) ?_
  refine PageShape.art2 (by decide) (by decide) (by decide) (by decide) (by decide) ?_
  exact PageShape.chr (by decide) (by decide) (by decide) PageShape.nil

theorem c9_page_extraction_witness :
    PageShape c9shaped
    ∧ (hasBracketArtifact (extract_page_clean c9shaped) = false
        ∧ hasPageArtifact (extract_page_clean c9shaped) = false) :=
  ⟨c9shaped_shape, c9_page_extraction_removes_artifacts c9shaped c9shaped_shape⟩
